import Mathlib

/-!
Verification of the cpp-string-utils library (src/string_utils.hpp).

Strings are modelled as `List Char`; a `std::string_view` token is a
`List Char` value obtained by `take`/`drop` slicing of the input list.
The C++ `for` loops over a string become structural recursion over the
remaining suffix of the input, with the loop index carried alongside, so
every function is executable and evaluates by `decide`.
-/

namespace utils

/-- The slice `str.substr(b, e - b)`: characters of positions `[b, e)`. -/
def extract (s : List Char) (b e : Nat) : List Char :=
  (s.drop b).take (e - b)

/-- Loop body of `split` (src/string_utils.hpp:132-151), recursing over the
remaining suffix `rest` of `str`, where `i` is the current loop index,
`beg` the start of the current token, `pending` the `isPrevEscape` flag and
`idx` the emission counter.  Returns the list of `(part, idx)` pairs passed
to the handler, in call order, including the final-remainder emission of
lines 152-155. -/
def splitGo (str bys : List Char) (w : Bool) (esc : Char) :
    List Char → Nat → Nat → Bool → Nat → List (List Char × Nat)
  | [], _i, beg, _pending, idx =>
    let part := str.drop beg
    if !part.isEmpty then [(part, idx)] else []
  | c :: rest, i, beg, pending, idx =>
    if pending then
      splitGo str bys w esc rest (i + 1) beg false idx
    else if c = esc then
      splitGo str bys w esc rest (i + 1) beg true idx
    else if c ∈ bys then
      let part := extract str beg i
      if w || !part.isEmpty then
        (part, idx) :: splitGo str bys w esc rest (i + 1) (i + 1) false (idx + 1)
      else
        splitGo str bys w esc rest (i + 1) (i + 1) false idx
    else
      splitGo str bys w esc rest (i + 1) beg false idx

/-- `utils::split` (src/string_utils.hpp:123-156) with the handler modelled
as present: the result lists the `(part, idx)` arguments of every handler
invocation in order.  `w` is `withEmpty`, `esc` the escape character. -/
def split (str bys : List Char) (w : Bool) (esc : Char) : List (List Char × Nat) :=
  if bys.isEmpty then [] else splitGo str bys w esc str 0 0 false 0

/-- Loop body of `substr` (src/string_utils.hpp:169-195), recursing over the
remaining suffix `rest` of `str` with loop index `i` (the C++ `offset`),
token start `beg` and `isPrevEscape` flag `pending`.  Returns the pair
(returned view, final value of the by-reference `offset`). -/
def substrGo (str bys : List Char) (w : Bool) (esc : Char) :
    List Char → Nat → Nat → Bool → List Char × Nat
  | [], i, beg, _pending =>
    let part := str.drop beg
    (if !part.isEmpty then part else [], i + 1)
  | c :: rest, i, beg, pending =>
    if pending then
      substrGo str bys w esc rest (i + 1) beg false
    else if c = esc then
      substrGo str bys w esc rest (i + 1) beg true
    else if c ∈ bys then
      let part := extract str beg i
      if w || !part.isEmpty then (part, i + 1)
      else substrGo str bys w esc rest (i + 1) (i + 1) false
    else
      substrGo str bys w esc rest (i + 1) beg false

/-- `utils::substr` (src/string_utils.hpp:158-196), the cursor tokenizer:
given the externally-owned cursor `offset`, returns the extracted token and
the new cursor value. -/
def substr (str : List Char) (offset : Nat) (bys : List Char) (w : Bool) (esc : Char) :
    List Char × Nat :=
  if bys.isEmpty then ([], offset)
  else if str.length ≤ offset then ([], offset)
  else substrGo str bys w esc (str.drop offset) offset offset false

/-- Tokens obtained by repeatedly calling `substr` from cursor `p` until the
cursor reports exhaustion (`cursor ≥ length`).  A call's returned view is
recorded as a token when it is non-empty or `withEmpty` is set (with
`withEmpty` unset an empty return is the exhaustion signal, never a token).
The cursor strictly increases on every call made while `p < length` with a
non-empty delimiter set (`substrGo_advance` below), so `str.length` bounds
the number of calls and is used as structural fuel; when the delimiter set
is empty no call makes progress and no token is ever produced. -/
def cursorTokensFrom (str bys : List Char) (w : Bool) (esc : Char) :
    Nat → Nat → List (List Char)
  | 0, _p => []
  | fuel + 1, p =>
    if p < str.length ∧ bys.isEmpty = false then
      let r := substr str p bys w esc
      if w || !r.1.isEmpty then r.1 :: cursorTokensFrom str bys w esc fuel r.2
      else cursorTokensFrom str bys w esc fuel r.2
    else []

/-- The whole token sequence delivered by the cursor tokenizer from cursor 0. -/
def cursorTokens (str bys : List Char) (w : Bool) (esc : Char) : List (List Char) :=
  cursorTokensFrom str bys w esc str.length 0

/-- Front loop of `utils::trimm` (src/string_utils.hpp:108-113): drop
leading characters that are members of the cut set. -/
def trimmFront (cutset : List Char) : List Char → List Char
  | [] => []
  | c :: rest => if c ∈ cutset then trimmFront cutset rest else c :: rest

/-- `utils::trimm` (src/string_utils.hpp:106-121): strip cut-set characters
from the front, then from the back (the back loop is the front loop on the
reversed list). -/
def trimm (s cutset : List Char) : List Char :=
  (trimmFront cutset ((trimmFront cutset s).reverse)).reverse

/-- Events observable from `utils::parseCSV`: cell-callback invocations
with their content and column index, and end-of-record callbacks. -/
inductive CSVEvent
  | cell : List Char → Nat → CSVEvent
  | endl : CSVEvent
deriving DecidableEq

/-- The mutable locals of `parseCSV` (src/string_utils.hpp:204-208). -/
structure CSVState where
  cell : List Char
  isString : Bool
  isPrevQuotes : Bool
  isPrevEndl : Bool
  idx : Nat
deriving DecidableEq

/-- One iteration of the `parseCSV` character loop
(src/string_utils.hpp:209-262), with both callbacks present: returns the
updated state and the events fired for this character. -/
def parseCSVChar (st : CSVState) (c : Char) : CSVState × List CSVEvent :=
  if st.isString then
    if c = '"' then ({ st with isString := false, isPrevQuotes := true }, [])
    else ({ st with cell := st.cell ++ [c] }, [])
  else
    let (st1, evs) :=
      if c = '"' then
        (if st.isPrevQuotes then
          { st with isPrevQuotes := false, cell := st.cell ++ ['"'], isString := true }
         else { st with isString := true }, [])
      else if c = ',' then
        ({ st with cell := [], idx := st.idx + 1 }, [CSVEvent.cell st.cell st.idx])
      else if c = Char.ofNat 0 ∨ c = '\n' ∨ c = '\r' then
        let evs1 := if !st.cell.isEmpty then [CSVEvent.cell st.cell st.idx] else []
        let evs2 := if !st.isPrevEndl then [CSVEvent.endl] else []
        ({ st with cell := [],
                   isPrevEndl := if !st.isPrevEndl then true else st.isPrevEndl,
                   idx := 0 }, evs1 ++ evs2)
      else ({ st with cell := st.cell ++ [c] }, [])
    let st2 := if c ≠ '"' then { st1 with isPrevQuotes := false } else st1
    let st3 := if c ≠ Char.ofNat 0 ∧ c ≠ '\n' ∧ c ≠ '\r' then { st2 with isPrevEndl := false }
               else st2
    (st3, evs)

/-- `utils::parseCSV` (src/string_utils.hpp:198-270) with both callbacks
present: the list of events fired over the whole input, including the
epilogue of lines 263-269. -/
def parseCSV (csv : List Char) : List CSVEvent :=
  let r := csv.foldl
    (fun (acc : CSVState × List CSVEvent) c =>
      let s := parseCSVChar acc.1 c
      (s.1, acc.2 ++ s.2))
    (⟨[], false, false, false, 0⟩, [])
  r.2 ++ (if !r.1.cell.isEmpty then [CSVEvent.cell r.1.cell r.1.idx] else [])
      ++ (if !r.1.isPrevEndl then [CSVEvent.endl] else [])

/-- Big-endian decimal/hex digit values of `n`, lowest-order digit last;
`fuel ≥ n` makes the recursion structural (the quotient strictly
decreases, so `n` itself is enough fuel). -/
def natDigitsBE (base : Nat) : Nat → Nat → List Nat
  | _fuel, 0 => []
  | 0, _n => []
  | fuel + 1, n + 1 =>
    natDigitsBE base fuel ((n + 1) / base) ++ [(n + 1) % base]

/-- Digit characters written by `std::to_chars` for a non-negative value:
lowercase, most significant first, `"0"` for zero. -/
def natToChars (base n : Nat) : List Char :=
  if n = 0 then ['0'] else (natDigitsBE base n n).map Nat.digitChar

/-- Characters written by `std::to_chars` for an integer value: a minus
sign followed by the digits of the magnitude when negative. -/
def intToChars (base : Nat) (n : Int) : List Char :=
  if n < 0 then '-' :: natToChars base n.natAbs else natToChars base n.toNat

/-- The charconv integer `utils::to_string` (src/string_utils.hpp:274-290):
`std::to_chars` into a buffer of capacity `bufSize`; on
`errc::value_too_large` (representation longer than the buffer) the empty
view is returned, otherwise the written prefix of the buffer. -/
def to_string (n : Int) (bufSize : Nat) (hex : Bool) : List Char :=
  let s := intToChars (if hex then 16 else 10) n
  if s.length ≤ bufSize then s else []

/-- Value of a character as a digit, as accepted by `std::from_chars`
(`0-9`, then letters of either case starting at value 10). -/
def digitVal (c : Char) : Option Nat :=
  if '0' ≤ c ∧ c ≤ '9' then some (c.toNat - '0'.toNat)
  else if 'a' ≤ c ∧ c ≤ 'z' then some (c.toNat - 'a'.toNat + 10)
  else if 'A' ≤ c ∧ c ≤ 'Z' then some (c.toNat - 'A'.toNat + 10)
  else none

/-- Whether `c` is a valid digit of the given base. -/
def validDigit (base : Nat) (c : Char) : Bool :=
  match digitVal c with
  | some d => d < base
  | none => false

/-- Longest prefix of digit values of the given base. -/
def takeDigits (base : Nat) : List Char → List Nat
  | [] => []
  | c :: rest =>
    match digitVal c with
    | some d => if d < base then d :: takeDigits base rest else []
    | none => []

/-- Value of a big-endian digit list. -/
def ofDigitsBE (base : Nat) (ds : List Nat) : Nat :=
  ds.foldl (fun a d => a * base + d) 0

/-- Error codes of `std::from_chars`. -/
inductive CharconvErr
  | invalid
  | outOfRange
deriving DecidableEq

/-- Model of the integer `std::from_chars` (external standard library
collaborator of src/string_utils.hpp:419-424) for a type with range
`[lo, hi]` (`lo < 0` exactly for signed types): consumes an optional minus
sign (signed only) followed by the longest run of digits of the base;
returns the number of characters consumed together with either the parsed
value, `invalid` when no digits were matched (nothing is consumed), or
`outOfRange` when the parsed value does not fit the range. -/
def fromCharsInt (lo hi : Int) (base : Nat) (s : List Char) : Nat × Except CharconvErr Int :=
  if lo < 0 ∧ s.head? = some '-' then
    let ds := takeDigits base s.tail
    if ds.isEmpty then (0, Except.error CharconvErr.invalid)
    else
      let v : Int := -(ofDigitsBE base ds : Nat)
      if lo ≤ v ∧ v ≤ hi then (1 + ds.length, Except.ok v)
      else (1 + ds.length, Except.error CharconvErr.outOfRange)
  else
    let ds := takeDigits base s
    if ds.isEmpty then (0, Except.error CharconvErr.invalid)
    else
      let v : Int := (ofDigitsBE base ds : Nat)
      if lo ≤ v ∧ v ≤ hi then (ds.length, Except.ok v)
      else (ds.length, Except.error CharconvErr.outOfRange)

/-- The charconv integer `utils::from_string` (src/string_utils.hpp:415-430)
for a type with range `[lo, hi]`: succeeds with the parsed value exactly
when `from_chars` reports no error and consumed the whole input. -/
def from_string (lo hi : Int) (s : List Char) (hex : Bool) : Option Int :=
  match fromCharsInt lo hi (if hex then 16 else 10) s with
  | (n, Except.ok v) => if n = s.length then some v else none
  | (_, Except.error _) => none

/-- The no-charconv float `utils::to_string` fallback
(src/string_utils.hpp:386-396) on non-negative values representable as
`k / 10^6` (which `snprintf` formats exactly): `"%.0f"` when the value is
integral, otherwise `"%.6f"` (integer part, point, six zero-padded
fractional digits), then `trimm` with cut set `"0"` (the `"0\0"` literal
passes through `strlen`, so the cut set is just the zero digit). -/
def to_string_float6 (k : Nat) : List Char :=
  let text :=
    if k % 1000000 = 0 then natToChars 10 (k / 1000000)
    else
      natToChars 10 (k / 1000000) ++ '.' ::
        (List.replicate (6 - (natToChars 10 (k % 1000000)).length) '0' ++
          natToChars 10 (k % 1000000))
  trimm text ['0']

/-! ## Helper lemmas about the scanning loops -/

/-- If the suffix of `str` at `i` starts with `c`, the suffix at `i + 1` is
its tail. -/
theorem drop_succ_of_drop_cons {str rest : List Char} {c : Char} {i : Nat}
    (h : str.drop i = c :: rest) : str.drop (i + 1) = rest := by
  have h1 : str.drop (i + 1) = (str.drop i).drop 1 := by
    rw [List.drop_drop, Nat.add_comm]
  rw [h1, h]
  rfl

/-- A position whose suffix is non-empty is inside the string. -/
theorem lt_length_of_drop_cons {str rest : List Char} {c : Char} {i : Nat}
    (h : str.drop i = c :: rest) : i < str.length := by
  by_contra hle
  push_neg at hle
  rw [List.drop_eq_nil_of_le hle] at h
  cases h

/-- The `substr` loop strictly advances the cursor. -/
theorem substrGo_advance (str bys : List Char) (w : Bool) (esc : Char) :
    ∀ rest i beg pending, i < (substrGo str bys w esc rest i beg pending).2 := by
  intro rest
  induction rest with
  | nil =>
    intro i beg pending
    simp [substrGo]
  | cons c rest ih =>
    intro i beg pending
    simp only [substrGo]
    split
    · exact Nat.lt_of_succ_lt (ih (i + 1) beg false)
    · split
      · exact Nat.lt_of_succ_lt (ih (i + 1) beg true)
      · split
        · split
          · exact Nat.lt_succ_self i
          · exact Nat.lt_of_succ_lt (ih (i + 1) (i + 1) false)
        · exact Nat.lt_of_succ_lt (ih (i + 1) beg false)

/-- Along the real suffix of `str`, the `substr` loop leaves the cursor at
most one past the end. -/
theorem substrGo_le (str bys : List Char) (w : Bool) (esc : Char) :
    ∀ rest i beg pending, rest = str.drop i → i ≤ str.length →
      (substrGo str bys w esc rest i beg pending).2 ≤ str.length + 1 := by
  intro rest
  induction rest with
  | nil =>
    intro i beg pending _ hi
    simpa [substrGo] using hi
  | cons c rest ih =>
    intro i beg pending hdrop hi
    have hlt : i < str.length := lt_length_of_drop_cons hdrop.symm
    have hrest : rest = str.drop (i + 1) := (drop_succ_of_drop_cons hdrop.symm).symm
    simp only [substrGo]
    split
    · exact ih (i + 1) beg false hrest hlt
    · split
      · exact ih (i + 1) beg true hrest hlt
      · split
        · split
          · exact Nat.succ_le_succ (Nat.le_of_lt hlt)
          · exact ih (i + 1) (i + 1) false hrest hlt
        · exact ih (i + 1) beg false hrest hlt

/-- Claim C5, as the code actually behaves: a call made with the cursor
inside the view never moves it backwards and leaves it at most at
`length + 1` (the sentinel one past the end used to signal exhaustion). -/
theorem substr_cursor_range (str : List Char) (offset : Nat) (bys : List Char)
    (w : Bool) (esc : Char) (h : offset ≤ str.length) :
    offset ≤ (substr str offset bys w esc).2
    ∧ (substr str offset bys w esc).2 ≤ str.length + 1 := by
  unfold substr
  split
  · exact ⟨Nat.le_refl _, Nat.le_succ_of_le h⟩
  · split
    · exact ⟨Nat.le_refl _, Nat.le_succ_of_le h⟩
    · exact ⟨Nat.le_of_lt (substrGo_advance str bys w esc _ offset offset false),
        substrGo_le str bys w esc _ offset offset false rfl h⟩

/-- Witness for `substr_cursor_range` at a concrete input. -/
theorem substr_cursor_range_witness :
    0 ≤ (substr ['a'] 0 [','] false '\\').2
    ∧ (substr ['a'] 0 [','] false '\\').2 ≤ List.length ['a'] + 1 :=
  substr_cursor_range ['a'] 0 [','] false '\\' (by decide)

/-- Claim C5 counterexample: the claim says the cursor stays in
`[0, view.length]` after every call, but consuming the final token of
`"a"` sets the cursor to 2 > 1. -/
theorem substr_cursor_range_counterexample :
    ¬ ((substr ['a'] 0 [','] false '\\').2 ≤ List.length ['a']) := by decide

/-- Claim C2 counterexample: splitting the input `a\,b,c` on `","` yields
the tokens `a\,b` and `c` — the escape character is still present in the
emitted token, which therefore differs from the claimed token `a,b`. -/
theorem split_escape_kept_counterexample :
    (split ['a', '\\', ',', 'b', ',', 'c'] [','] false '\\').map Prod.fst
      = [['a', '\\', ',', 'b'], ['c']]
    ∧ ['a', '\\', ',', 'b'] ≠ ['a', ',', 'b'] := by decide

/-- Claim C2 as amended: an escape character suppresses the delimiter
status of the following character, so no token boundary is placed there,
but tokens are unmodified subviews of the input — the escape character is
not removed.  Splitting `a\,b,c` on `","` yields `a\,b` then `c`, in both
`split` and the cursor tokenizer. -/
theorem split_escape_no_boundary :
    split ['a', '\\', ',', 'b', ',', 'c'] [','] false '\\'
      = [(['a', '\\', ',', 'b'], 0), (['c'], 1)]
    ∧ substr ['a', '\\', ',', 'b', ',', 'c'] 0 [','] false '\\'
      = (['a', '\\', ',', 'b'], 5)
    ∧ cursorTokens ['a', '\\', ',', 'b', ',', 'c'] [','] false '\\'
      = [['a', '\\', ',', 'b'], ['c']] := by decide

/-- Claim C6, what the code does at the failing inputs: `trimm` with cut
set `"0"` strips zeros from both ends, so 0.5 (snprintf text `0.500000`)
becomes `.5` rather than `0.5`, the text `10.00` becomes `10.` rather than
`10`, and the integral value 10.0 (snprintf text `10`) becomes `1`. -/
theorem float_fallback_trim_bug :
    to_string_float6 500000 = ['.', '5']
    ∧ trimm ['1', '0', '.', '0', '0'] ['0'] = ['1', '0', '.']
    ∧ to_string_float6 10000000 = ['1'] := by decide

/-- Claim C8: `parseCSV` coalesces CR LF into a single record break.  On
`a,b CR LF c,d CR LF` the events are exactly the four cells with
per-record indices 0 and 1 and exactly two end-of-record events; and in
general a record-terminator character processed while the
previous-was-terminator flag is set (unquoted mode, empty pending cell)
fires no event at all. -/
theorem parseCSV_crlf_coalesce (q : Bool) (k : Nat) (c : Char)
    (h : c = Char.ofNat 0 ∨ c = '\n' ∨ c = '\r') :
    parseCSV ['a', ',', 'b', '\r', '\n', 'c', ',', 'd', '\r', '\n']
      = [CSVEvent.cell ['a'] 0, CSVEvent.cell ['b'] 1, CSVEvent.endl,
         CSVEvent.cell ['c'] 0, CSVEvent.cell ['d'] 1, CSVEvent.endl]
    ∧ parseCSVChar ⟨[], false, q, true, k⟩ c = (⟨[], false, false, true, 0⟩, []) := by
  constructor
  · decide
  · rcases h with rfl | rfl | rfl <;> cases q <;> rfl

/-- Witness for `parseCSV_crlf_coalesce`: an LF right after a CR emits
nothing. -/
theorem parseCSV_crlf_coalesce_witness :
    parseCSVChar ⟨[], false, false, true, 5⟩ '\n' = (⟨[], false, false, true, 0⟩, []) :=
  (parseCSV_crlf_coalesce false 5 '\n' (Or.inr (Or.inl rfl))).2

/-! ## Tokens are contiguous slices of the input -/

/-- `extract` always yields a contiguous slice of the original list. -/
theorem extract_slice (s : List Char) (b e : Nat) :
    ∃ pre post, pre ++ extract s b e ++ post = s :=
  ⟨s.take b, (s.drop b).drop (e - b), by
    rw [extract, List.append_assoc, List.take_append_drop, List.take_append_drop]⟩

/-- Every token emitted by the `split` loop is a contiguous slice of the
input. -/
theorem splitGo_tokens_slice (str bys : List Char) (w : Bool) (esc : Char) :
    ∀ rest i beg pending idx, ∀ pr ∈ splitGo str bys w esc rest i beg pending idx,
      ∃ pre post, pre ++ pr.1 ++ post = str := by
  intro rest
  induction rest with
  | nil =>
    intro i beg pending idx pr h
    simp only [splitGo] at h
    split at h
    · rcases List.mem_singleton.mp h with rfl
      exact ⟨str.take beg, [], by simp⟩
    · cases h
  | cons c rest ih =>
    intro i beg pending idx pr h
    simp only [splitGo] at h
    split at h
    · exact ih _ _ _ _ pr h
    · split at h
      · exact ih _ _ _ _ pr h
      · split at h
        · split at h
          · rcases List.mem_cons.mp h with rfl | h'
            · exact extract_slice str beg i
            · exact ih _ _ _ _ pr h'
          · exact ih _ _ _ _ pr h
        · exact ih _ _ _ _ pr h

/-- The view returned by the `substr` loop is a contiguous slice of the
input. -/
theorem substrGo_fst_slice (str bys : List Char) (w : Bool) (esc : Char) :
    ∀ rest i beg pending, ∃ pre post,
      pre ++ (substrGo str bys w esc rest i beg pending).1 ++ post = str := by
  intro rest
  induction rest with
  | nil =>
    intro i beg pending
    simp only [substrGo]
    split
    · exact ⟨str.take beg, [], by simp⟩
    · exact ⟨[], str, rfl⟩
  | cons c rest ih =>
    intro i beg pending
    simp only [substrGo]
    split
    · exact ih _ _ _
    · split
      · exact ih _ _ _
      · split
        · split
          · exact extract_slice str beg i
          · exact ih _ _ _
        · exact ih _ _ _

/-- Claim C10: every token handed to `split`'s handler, and the view
returned by any `substr` call, is a contiguous slice of the original input
(no character inside a token is removed or altered, escape characters
included). -/
theorem tokens_are_subviews (str bys : List Char) (w : Bool) (esc : Char) (offset : Nat) :
    (∀ pr ∈ split str bys w esc, ∃ pre post, pre ++ pr.1 ++ post = str)
    ∧ (∃ pre post, pre ++ (substr str offset bys w esc).1 ++ post = str) := by
  constructor
  · intro pr h
    unfold split at h
    split at h
    · cases h
    · exact splitGo_tokens_slice str bys w esc _ _ _ _ _ pr h
  · unfold substr
    split
    · exact ⟨[], str, rfl⟩
    · split
      · exact ⟨[], str, rfl⟩
      · exact substrGo_fst_slice str bys w esc _ _ _ _

/-- Witness for `tokens_are_subviews`: the token `b` of `split "a,b"` is a
slice of the input. -/
theorem tokens_are_subviews_witness :
    ∃ pre post, pre ++ (['b'] : List Char) ++ post = ['a', ',', 'b'] :=
  (tokens_are_subviews ['a', ',', 'b'] [','] false '\\' 0).1 (['b'], 1) (by decide)

/-! ## Empty-token policy of split -/

/-- The indices emitted by the `split` loop are consecutive starting at the
running counter. -/
theorem splitGo_idx (str bys : List Char) (w : Bool) (esc : Char) :
    ∀ rest i beg pending idx,
      (splitGo str bys w esc rest i beg pending idx).map Prod.snd
        = List.range' idx (splitGo str bys w esc rest i beg pending idx).length := by
  intro rest
  induction rest with
  | nil =>
    intro i beg pending idx
    simp only [splitGo]
    split
    · simp [List.range'_succ]
    · simp
  | cons c rest ih =>
    intro i beg pending idx
    simp only [splitGo]
    split
    · exact ih (i + 1) beg false idx
    · split
      · exact ih (i + 1) beg true idx
      · split
        · split
          · simp only [List.map_cons, List.length_cons, List.range'_succ]
            rw [ih (i + 1) (i + 1) false (idx + 1)]
          · exact ih (i + 1) (i + 1) false idx
        · exact ih (i + 1) beg false idx

/-- With `withEmpty` unset, the `split` loop emits exactly the non-empty
tokens of the `withEmpty` run, in order (the emission counters may
differ). -/
theorem splitGo_withEmpty_filter (str bys : List Char) (esc : Char) :
    ∀ rest i beg pending idx idx',
      (splitGo str bys false esc rest i beg pending idx).map Prod.fst
        = ((splitGo str bys true esc rest i beg pending idx').map Prod.fst).filter
            (fun t => !t.isEmpty) := by
  intro rest
  induction rest with
  | nil =>
    intro i beg pending idx idx'
    simp only [splitGo]
    by_cases hp : (str.drop beg).isEmpty
    · simp [hp]
    · simp [hp]
  | cons c rest ih =>
    intro i beg pending idx idx'
    simp only [splitGo]
    split
    · exact ih (i + 1) beg false idx idx'
    · split
      · exact ih (i + 1) beg true idx idx'
      · split
        · by_cases hp : (extract str beg i).isEmpty
          · simpa [hp] using ih (i + 1) (i + 1) false idx (idx' + 1)
          · simpa [hp] using ih (i + 1) (i + 1) false (idx + 1) (idx' + 1)
        · exact ih (i + 1) beg false idx idx'

/-- Claim C9: with `includeEmpty` unset, interior empty tokens are dropped
without consuming an index (indices are consecutive from 0 over emitted
tokens), and the trailing remainder is emitted exactly when non-empty,
regardless of the flag: the `includeEmpty = false` token list is precisely
the non-empty sublist of the `includeEmpty = true` token list, whose own
trailing emission is already conditional on being non-empty.  Concrete
checks: `a,,b` and the delimiter-terminated `a,,` under both flags. -/
theorem split_empty_token_policy (str bys : List Char) (w : Bool) (esc : Char) :
    (split str bys false esc).map Prod.fst
      = ((split str bys true esc).map Prod.fst).filter (fun t => !t.isEmpty)
    ∧ (split str bys w esc).map Prod.snd = List.range (split str bys w esc).length
    ∧ split ['a', ',', ',', 'b'] [','] false '\\' = [(['a'], 0), (['b'], 1)]
    ∧ split ['a', ',', ',', 'b'] [','] true '\\' = [(['a'], 0), ([], 1), (['b'], 2)]
    ∧ split ['a', ',', ','] [','] false '\\' = [(['a'], 0)]
    ∧ split ['a', ',', ','] [','] true '\\' = [(['a'], 0), ([], 1)] := by
  refine ⟨?_, ?_, by decide, by decide, by decide, by decide⟩
  · unfold split
    split
    · rfl
    · exact splitGo_withEmpty_filter str bys esc str 0 0 false 0 0
  · unfold split
    split
    · rfl
    · rw [List.range_eq_range']
      exact splitGo_idx str bys w esc str 0 0 false 0

/-! ## Equivalence of split and the cursor tokenizer -/

/-- When the `substr` loop stops at a delimiter (cursor still inside the
view), the emission guard held. -/
theorem substrGo_emit_guard (str bys : List Char) (w : Bool) (esc : Char) :
    ∀ rest i beg pending, rest = str.drop i →
      ((substrGo str bys w esc rest i beg pending).2 ≤ str.length →
        (w || !(substrGo str bys w esc rest i beg pending).1.isEmpty) = true) := by
  intro rest
  induction rest with
  | nil =>
    intro i beg pending hdrop hle
    exfalso
    have hi : str.length ≤ i := List.drop_eq_nil_iff.mp hdrop.symm
    have h1 : i + 1 ≤ str.length := by simpa [substrGo] using hle
    omega
  | cons c rest ih =>
    intro i beg pending hdrop
    have hrest : rest = str.drop (i + 1) := (drop_succ_of_drop_cons hdrop.symm).symm
    simp only [substrGo]
    split
    · exact ih (i + 1) beg false hrest
    · split
      · exact ih (i + 1) beg true hrest
      · split
        · split
          · rename_i hguard
            intro _
            exact hguard
          · exact ih (i + 1) (i + 1) false hrest
        · exact ih (i + 1) beg false hrest

/-- With `withEmpty` set, the token start never moves, so if the `substr`
loop runs off the end (cursor past the view) it returns the whole suffix
from the token start. -/
theorem substrGo_withEmpty_tail (str bys : List Char) (esc : Char) :
    ∀ rest i beg pending, rest = str.drop i →
      (str.length < (substrGo str bys true esc rest i beg pending).2 →
        (substrGo str bys true esc rest i beg pending).1 = str.drop beg) := by
  intro rest
  induction rest with
  | nil =>
    intro i beg pending _ _
    simp only [substrGo]
    by_cases hp : (str.drop beg).isEmpty
    · simp only [hp, Bool.not_true, if_false]
      exact ((List.isEmpty_iff).mp hp).symm
    · simp [hp]
  | cons c rest ih =>
    intro i beg pending hdrop
    have hrest : rest = str.drop (i + 1) := (drop_succ_of_drop_cons hdrop.symm).symm
    have hlt : i < str.length := lt_length_of_drop_cons hdrop.symm
    simp only [substrGo]
    split
    · exact ih (i + 1) beg false hrest
    · split
      · exact ih (i + 1) beg true hrest
      · split
        · split
          · intro hgt
            exfalso
            have hgt' : str.length < i + 1 := hgt
            omega
          · rename_i hguard
            exact absurd (by simp) hguard
        · exact ih (i + 1) beg false hrest

/-- Core alignment of the two scanners: along the real suffix of `str`,
the emissions of the `split` loop are one `substr` call followed by the
emissions of the `split` loop restarted right after it — where a cursor
still inside the view signals the delimiter-stop (always emitted), and a
cursor past the view signals the end-of-input return (emitted iff
non-empty). -/
theorem splitGo_substrGo (str bys : List Char) (w : Bool) (esc : Char) :
    ∀ rest i beg pending idx, rest = str.drop i →
      (splitGo str bys w esc rest i beg pending idx).map Prod.fst
        = if (substrGo str bys w esc rest i beg pending).2 ≤ str.length then
            (substrGo str bys w esc rest i beg pending).1 ::
              (splitGo str bys w esc
                (str.drop (substrGo str bys w esc rest i beg pending).2)
                (substrGo str bys w esc rest i beg pending).2
                (substrGo str bys w esc rest i beg pending).2 false (idx + 1)).map Prod.fst
          else if (substrGo str bys w esc rest i beg pending).1.isEmpty then []
          else [(substrGo str bys w esc rest i beg pending).1] := by
  intro rest
  induction rest with
  | nil =>
    intro i beg pending idx hdrop
    have hi : str.length ≤ i := List.drop_eq_nil_iff.mp hdrop.symm
    simp only [splitGo, substrGo]
    rw [if_neg (show ¬ ((if !(str.drop beg).isEmpty then str.drop beg else [],
      i + 1) : List Char × Nat).2 ≤ str.length by simp; omega)]
    by_cases hp : (str.drop beg).isEmpty
    · simp [hp]
    · simp [hp]
  | cons c rest ih =>
    intro i beg pending idx hdrop
    have hrest : rest = str.drop (i + 1) := (drop_succ_of_drop_cons hdrop.symm).symm
    have hlt : i < str.length := lt_length_of_drop_cons hdrop.symm
    simp only [splitGo, substrGo]
    split
    · exact ih (i + 1) beg false idx hrest
    · split
      · exact ih (i + 1) beg true idx hrest
      · split
        · split
          · rw [if_pos (show ((extract str beg i, i + 1) : List Char × Nat).2 ≤ str.length
              from hlt)]
            simp only [List.map_cons]
            rw [← hrest]
          · exact ih (i + 1) (i + 1) false idx hrest
        · exact ih (i + 1) beg false idx hrest

/-- A call made at an exhausted cursor, or with an empty delimiter set,
collects nothing. -/
theorem cursorTokensFrom_stop (str bys : List Char) (w : Bool) (esc : Char) (fuel p : Nat)
    (h : ¬ (p < str.length ∧ bys.isEmpty = false)) :
    cursorTokensFrom str bys w esc fuel p = [] := by
  cases fuel with
  | zero => rfl
  | succ fuel => simp only [cursorTokensFrom, if_neg h]

/-- The `split` emissions from any restart position equal the tokens the
cursor tokenizer collects from that position, given enough fuel. -/
theorem splitGo_cursorTokensFrom (str bys : List Char) (w : Bool) (esc : Char)
    (hb : bys.isEmpty = false) :
    ∀ fuel p idx, str.length ≤ fuel + p →
      (splitGo str bys w esc (str.drop p) p p false idx).map Prod.fst
        = cursorTokensFrom str bys w esc fuel p := by
  intro fuel
  induction fuel with
  | zero =>
    intro p idx hf
    have hdrop : str.drop p = [] := List.drop_eq_nil_of_le (by omega)
    rw [hdrop]
    simp [splitGo, cursorTokensFrom, hdrop]
  | succ fuel ihf =>
    intro p idx hf
    by_cases hp : p < str.length
    · have hsub : substr str p bys w esc = substrGo str bys w esc (str.drop p) p p false := by
        unfold substr
        rw [if_neg (by simp [hb]), if_neg (by omega)]
      have hadv : p < (substrGo str bys w esc (str.drop p) p p false).2 :=
        substrGo_advance str bys w esc (str.drop p) p p false
      simp only [cursorTokensFrom]
      rw [if_pos (show p < str.length ∧ bys.isEmpty = false from ⟨hp, hb⟩), hsub]
      rw [splitGo_substrGo str bys w esc (str.drop p) p p false idx rfl]
      by_cases hple : (substrGo str bys w esc (str.drop p) p p false).2 ≤ str.length
      · rw [if_pos hple]
        have hguard := substrGo_emit_guard str bys w esc (str.drop p) p p false rfl hple
        rw [if_pos hguard]
        rw [ihf (substrGo str bys w esc (str.drop p) p p false).2 (idx + 1) (by omega)]
      · rw [if_neg hple]
        have hstop : cursorTokensFrom str bys w esc fuel
            (substrGo str bys w esc (str.drop p) p p false).2 = [] :=
          cursorTokensFrom_stop str bys w esc fuel _ (by
            intro hcon
            exact hple (Nat.le_of_lt hcon.1))
        by_cases hguard : (w || !(substrGo str bys w esc (str.drop p) p p false).1.isEmpty) = true
        · rw [if_pos hguard, hstop]
          have hne : (substrGo str bys w esc (str.drop p) p p false).1.isEmpty = false := by
            cases w with
            | true =>
              have := substrGo_withEmpty_tail str bys esc (str.drop p) p p false rfl
                (Nat.lt_of_not_le hple)
              rw [this, List.isEmpty_eq_false]
              intro hnil
              exact absurd (List.drop_eq_nil_iff.mp hnil) (by omega)
            | false =>
              simpa using hguard
          rw [if_neg (by simp [hne])]
        · rw [if_neg hguard]
          have hw : w = false := by
            cases w
            · rfl
            · exact absurd (by simp) hguard
          have hemp : (substrGo str bys w esc (str.drop p) p p false).1.isEmpty = true := by
            subst hw
            simpa using hguard
          rw [if_pos hemp, hstop]
    · have hdrop : str.drop p = [] := List.drop_eq_nil_of_le (by omega)
      rw [hdrop, cursorTokensFrom_stop str bys w esc (fuel + 1) p (by
        intro hcon
        exact hp hcon.1)]
      simp [splitGo, hdrop]

/-- Claim C1: the sequence of tokens delivered to `split`'s handler equals
the sequence obtained by repeatedly calling `substr` from cursor 0 until
the cursor reports exhaustion (with an empty delimiter set both sides
deliver nothing: `split` returns at once and the tokenizer makes no
progress, producing no token). -/
theorem split_cursor_equiv (str bys : List Char) (w : Bool) (esc : Char) :
    (split str bys w esc).map Prod.fst = cursorTokens str bys w esc := by
  unfold split cursorTokens
  by_cases hb : bys.isEmpty
  · rw [if_pos hb]
    rw [cursorTokensFrom_stop str bys w esc str.length 0 (by
      intro hcon
      rw [hb] at hcon
      cases hcon.2)]
    rfl
  · have hb' : bys.isEmpty = false := by simpa using hb
    rw [if_neg hb]
    have h := splitGo_cursorTokensFrom str bys w esc hb' str.length 0 0 (by omega)
    rw [List.drop_zero] at h
    exact h

/-! ## Numeric conversion lemmas -/

/-- `digitVal` inverts `Nat.digitChar` on the digits used by bases up
to 16. -/
theorem digitVal_digitChar (d : Nat) (hd : d < 16) :
    digitVal (Nat.digitChar d) = some d := by
  interval_cases d <;> decide

/-- No digit character of a base up to 16 is the minus sign. -/
theorem digitChar_ne_minus (d : Nat) (hd : d < 16) : Nat.digitChar d ≠ '-' := by
  interval_cases d <;> decide

/-- All digit values produced by `natDigitsBE` are below the base. -/
theorem natDigitsBE_lt (base : Nat) (hb : 0 < base) :
    ∀ fuel n, ∀ d ∈ natDigitsBE base fuel n, d < base := by
  intro fuel
  induction fuel with
  | zero =>
    intro n d hd
    cases n <;> simp [natDigitsBE] at hd
  | succ fuel ih =>
    intro n d hd
    match n with
    | 0 => simp [natDigitsBE] at hd
    | m + 1 =>
      simp only [natDigitsBE, List.mem_append, List.mem_singleton] at hd
      rcases hd with hd | rfl
      · exact ih _ _ hd
      · exact Nat.mod_lt _ hb

/-- Value of a digit list with one more low-order digit appended. -/
theorem ofDigitsBE_append (base : Nat) (ds : List Nat) (d : Nat) :
    ofDigitsBE base (ds ++ [d]) = ofDigitsBE base ds * base + d := by
  unfold ofDigitsBE
  rw [List.foldl_append]
  rfl

/-- `ofDigitsBE` recovers the number from its `natDigitsBE` digits. -/
theorem ofDigitsBE_natDigitsBE (base : Nat) (hb : 2 ≤ base) :
    ∀ fuel n, n ≤ fuel → ofDigitsBE base (natDigitsBE base fuel n) = n := by
  intro fuel
  induction fuel with
  | zero =>
    intro n hn
    interval_cases n
    rfl
  | succ fuel ih =>
    intro n hn
    match n with
    | 0 => rfl
    | m + 1 =>
      have hdiv : (m + 1) / base < m + 1 := Nat.div_lt_self (Nat.succ_pos m) (by omega)
      simp only [natDigitsBE]
      rw [ofDigitsBE_append, ih ((m + 1) / base) (by omega), Nat.mul_comm]
      exact Nat.div_add_mod (m + 1) base

/-- A positive number has at least one digit. -/
theorem natDigitsBE_ne_nil (base fuel n : Nat) (hn : 0 < n) (hf : 0 < fuel) :
    natDigitsBE base fuel n ≠ [] := by
  cases fuel with
  | zero => omega
  | succ fuel =>
    cases n with
    | zero => omega
    | succ m => simp [natDigitsBE]

/-- `takeDigits` reads back a digit-character list in full. -/
theorem takeDigits_map_digitChar (base : Nat) (hb : base ≤ 16) :
    ∀ ds : List Nat, (∀ d ∈ ds, d < base) →
      takeDigits base (ds.map Nat.digitChar) = ds := by
  intro ds
  induction ds with
  | nil => intro _; rfl
  | cons d ds ih =>
    intro h
    have hd : d < base := h d (List.mem_cons_self d ds)
    have h16 : d < 16 := Nat.lt_of_lt_of_le hd hb
    simp only [List.map_cons, takeDigits, digitVal_digitChar d h16]
    rw [if_pos hd, ih (fun x hx => h x (List.mem_cons_of_mem d hx))]

/-- Parsing the characters written for `m` consumes all of them and
recovers `m`. -/
theorem takeDigits_natToChars (base m : Nat) (hb : 2 ≤ base) (hb' : base ≤ 16) :
    ofDigitsBE base (takeDigits base (natToChars base m)) = m
    ∧ (takeDigits base (natToChars base m)).length = (natToChars base m).length
    ∧ takeDigits base (natToChars base m) ≠ [] := by
  by_cases hm : m = 0
  · subst hm
    have h0 : takeDigits base (natToChars base 0) = [0] := by
      have hdv : digitVal '0' = some 0 := by decide
      show takeDigits base ['0'] = [0]
      simp only [takeDigits, hdv]
      rw [if_pos (show 0 < base by omega)]
    rw [h0]
    exact ⟨by simp [ofDigitsBE], rfl, by simp⟩
  · have h1 : takeDigits base (natToChars base m) = natDigitsBE base m m := by
      rw [natToChars, if_neg hm]
      exact takeDigits_map_digitChar base hb' _
        (fun d hd => natDigitsBE_lt base (by omega) m m d hd)
    rw [h1]
    refine ⟨ofDigitsBE_natDigitsBE base hb m m (Nat.le_refl m), ?_,
      natDigitsBE_ne_nil base m m (by omega) (by omega)⟩
    rw [natToChars, if_neg hm, List.length_map]

/-- The textual form of a non-negative number never starts with a minus
sign. -/
theorem natToChars_head_ne_minus (base m : Nat) (hb : 2 ≤ base) (hb' : base ≤ 16) :
    (natToChars base m).head? ≠ some '-' := by
  by_cases hm : m = 0
  · subst hm
    show (['0'] : List Char).head? ≠ some '-'
    decide
  · rw [natToChars, if_neg hm]
    rcases hne : natDigitsBE base m m with _ | ⟨d, ds⟩
    · exact absurd hne (natDigitsBE_ne_nil base m m (by omega) (by omega))
    · simp only [List.map_cons, List.head?_cons, ne_eq, Option.some.injEq]
      have hd : d < 16 := Nat.lt_of_lt_of_le
        (natDigitsBE_lt base (by omega) m m d (by rw [hne]; exact List.mem_cons_self d ds)) hb'
      exact digitChar_ne_minus d hd

/-- The textual form of an integer is never empty. -/
theorem intToChars_ne_nil (base : Nat) (n : Int) : intToChars base n ≠ [] := by
  unfold intToChars
  split
  · simp
  · unfold natToChars
    split
    · simp
    · rename_i hm
      have := natDigitsBE_ne_nil base n.toNat n.toNat (by omega) (by omega)
      simp only [ne_eq, List.map_eq_nil_iff]
      exact this

/-- Claim C7: the charconv integer `to_string` returns the empty view
exactly when the buffer is too small for the textual representation; in
particular a 2-byte buffer cannot hold `123456789`, while a 20-byte buffer
yields a non-empty result. -/
theorem to_string_buffer_iff (n : Int) (bufSize : Nat) (hex : Bool) :
    (to_string n bufSize hex = []
      ↔ bufSize < (intToChars (if hex then 16 else 10) n).length)
    ∧ to_string 123456789 2 false = []
    ∧ to_string 123456789 20 false ≠ [] := by
  refine ⟨?_, by decide, by decide⟩
  unfold to_string
  by_cases h : (intToChars (if hex then 16 else 10) n).length ≤ bufSize
  · rw [if_pos h]
    constructor
    · intro hnil
      exact absurd hnil (intToChars_ne_nil _ n)
    · intro hlt
      omega
  · rw [if_neg h]
    constructor
    · intro _
      omega
    · intro _
      rfl

/-- Claim C3: round trip.  For any integer type with range `[lo, hi]`
(`lo < 0` exactly for the signed types), any value `n` in range, base 10
or 16 (the `hex` flag), and a buffer large enough for the textual
representation, `from_string` applied to the view written by `to_string`
succeeds and returns `n`. -/
theorem int_round_trip (lo hi n : Int) (bufSize : Nat) (hex : Bool)
    (hlo : lo ≤ n) (hhi : n ≤ hi)
    (hbuf : (intToChars (if hex then 16 else 10) n).length ≤ bufSize) :
    from_string lo hi (to_string n bufSize hex) hex = some n := by
  set base := if hex then 16 else 10 with hbase
  have hb : 2 ≤ base := by rw [hbase]; cases hex <;> norm_num
  have hb' : base ≤ 16 := by rw [hbase]; cases hex <;> norm_num
  have hts : to_string n bufSize hex = intToChars base n := by
    unfold to_string
    rw [← hbase, if_pos hbuf]
  rw [hts]
  rcases lt_or_ge n 0 with hn | hn
  · have hlo0 : lo < 0 := lt_of_le_of_lt hlo hn
    have hichars : intToChars base n = '-' :: natToChars base n.natAbs := by
      rw [intToChars, if_pos hn]
    obtain ⟨hval, hlen, hne⟩ := takeDigits_natToChars base n.natAbs hb hb'
    have hfc : fromCharsInt lo hi base ('-' :: natToChars base n.natAbs)
        = (1 + (takeDigits base (natToChars base n.natAbs)).length, Except.ok n) := by
      unfold fromCharsInt
      rw [if_pos (show lo < 0 ∧ ('-' :: natToChars base n.natAbs).head? = some '-'
        from ⟨hlo0, rfl⟩)]
      simp only [List.tail_cons]
      rw [if_neg (show ¬ (takeDigits base (natToChars base n.natAbs)).isEmpty = true by
        simp only [List.isEmpty_iff]; exact hne)]
      rw [hval]
      have hneg : -((n.natAbs : Nat) : Int) = n := by omega
      rw [hneg, if_pos ⟨hlo, hhi⟩]
    rw [hichars]
    unfold from_string
    rw [← hbase, hfc]
    show (if 1 + (takeDigits base (natToChars base n.natAbs)).length
        = ('-' :: natToChars base n.natAbs).length then some n else none) = some n
    rw [if_pos (by rw [hlen, List.length_cons]; omega)]
  · have hichars : intToChars base n = natToChars base n.toNat := by
      rw [intToChars, if_neg (by omega)]
    obtain ⟨hval, hlen, hne⟩ := takeDigits_natToChars base n.toNat hb hb'
    have hfc : fromCharsInt lo hi base (natToChars base n.toNat)
        = ((takeDigits base (natToChars base n.toNat)).length, Except.ok n) := by
      unfold fromCharsInt
      rw [if_neg (show ¬ (lo < 0 ∧ (natToChars base n.toNat).head? = some '-') from
        fun hcon => natToChars_head_ne_minus base n.toNat hb hb' hcon.2)]
      rw [if_neg (show ¬ (takeDigits base (natToChars base n.toNat)).isEmpty = true by
        simp only [List.isEmpty_iff]; exact hne)]
      rw [hval]
      have hcast : ((n.toNat : Nat) : Int) = n := by omega
      rw [hcast, if_pos ⟨hlo, hhi⟩]
    rw [hichars]
    unfold from_string
    rw [← hbase, hfc]
    show (if (takeDigits base (natToChars base n.toNat)).length
        = (natToChars base n.toNat).length then some n else none) = some n
    rw [if_pos hlen]

/-- Witness for `int_round_trip`: `-123` through a 12-byte buffer in
base 10 over the `int32_t` range. -/
theorem int_round_trip_witness :
    from_string (-2147483648) 2147483647 (to_string (-123) 12 false) false
      = some (-123) :=
  int_round_trip (-2147483648) 2147483647 (-123) 12 false
    (by decide) (by decide) (by decide)

/-- `from_string` fails whenever the parse did not consume the whole
input. -/
theorem from_string_none_of_len (lo hi : Int) (hex : Bool) (s : List Char)
    (h : (fromCharsInt lo hi (if hex then 16 else 10) s).1 ≠ s.length) :
    from_string lo hi s hex = none := by
  unfold from_string
  rcases hfc : fromCharsInt lo hi (if hex then 16 else 10) s with ⟨k, r⟩
  rw [hfc] at h
  rcases r with e | v
  · rfl
  · exact if_neg h

/-- `from_string` fails whenever `from_chars` reports an error. -/
theorem from_string_none_of_err (lo hi : Int) (hex : Bool) (s : List Char)
    (e : CharconvErr)
    (h : (fromCharsInt lo hi (if hex then 16 else 10) s).2 = Except.error e) :
    from_string lo hi s hex = none := by
  unfold from_string
  rcases hfc : fromCharsInt lo hi (if hex then 16 else 10) s with ⟨k, r⟩
  rw [hfc] at h
  rcases r with e' | v
  · rfl
  · cases h

/-- A successful `from_string` means `from_chars` consumed the entire
input without error. -/
theorem from_string_some (lo hi : Int) (hex : Bool) (s : List Char) (v : Int)
    (h : from_string lo hi s hex = some v) :
    (fromCharsInt lo hi (if hex then 16 else 10) s).1 = s.length
    ∧ (fromCharsInt lo hi (if hex then 16 else 10) s).2 = Except.ok v := by
  unfold from_string at h
  rcases hfc : fromCharsInt lo hi (if hex then 16 else 10) s with ⟨k, r⟩
  rw [hfc] at h
  rcases r with e | v'
  · cases h
  · have h' : (if k = s.length then some v' else none) = some v := h
    by_cases hk : k = s.length
    · rw [if_pos hk] at h'
      cases h'
      exact ⟨hk, rfl⟩
    · rw [if_neg hk] at h'
      cases h'

/-- The digit run cannot reach past a non-digit character. -/
theorem takeDigits_append_invalid (base : Nat) (c : Char)
    (hc : validDigit base c = false) :
    ∀ t : List Char, (takeDigits base (t ++ [c])).length ≤ t.length := by
  intro t
  induction t with
  | nil =>
    simp only [List.nil_append, takeDigits]
    rcases hdv : digitVal c with _ | d
    · simp
    · simp only [validDigit, hdv, decide_eq_false_iff_not] at hc
      simp only [hdv]
      rw [if_neg hc]
      simp
  | cons a t ih =>
    simp only [List.cons_append, takeDigits]
    rcases hdv : digitVal a with _ | d
    · simp
    · simp only [hdv]
      split
      · simp only [List.length_cons]
        exact Nat.succ_le_succ ih
      · simp

/-- On an input ending in a non-digit of the base, `from_chars` either
leaves characters unconsumed or reports an error. -/
theorem fromCharsInt_append_invalid (lo hi : Int) (base : Nat) (s : List Char)
    (c : Char) (hc : validDigit base c = false) :
    (fromCharsInt lo hi base (s ++ [c])).1 < (s ++ [c]).length
    ∨ ∃ e, (fromCharsInt lo hi base (s ++ [c])).2 = Except.error e := by
  unfold fromCharsInt
  by_cases hsign : lo < 0 ∧ (s ++ [c]).head? = some '-'
  · rw [if_pos hsign]
    rcases s with _ | ⟨a, s'⟩
    · right
      exact ⟨CharconvErr.invalid, rfl⟩
    · simp only [List.cons_append, List.tail_cons]
      have hlen := takeDigits_append_invalid base c hc s'
      split
      · left
        show 0 < (a :: (s' ++ [c])).length
        simp
      · split
        · left
          show 1 + (takeDigits base (s' ++ [c])).length < (a :: (s' ++ [c])).length
          simp only [List.length_cons, List.length_append, List.length_singleton]
          omega
        · left
          show 1 + (takeDigits base (s' ++ [c])).length < (a :: (s' ++ [c])).length
          simp only [List.length_cons, List.length_append, List.length_singleton]
          omega
  · rw [if_neg hsign]
    have hlen := takeDigits_append_invalid base c hc s
    dsimp only
    split
    · left
      show 0 < (s ++ [c]).length
      simp
    · split
      · left
        show (takeDigits base (s ++ [c])).length < (s ++ [c]).length
        simp only [List.length_append, List.length_singleton]
        omega
      · left
        show (takeDigits base (s ++ [c])).length < (s ++ [c]).length
        simp only [List.length_append, List.length_singleton]
        omega

/-- Claim C4: `from_string` succeeds only when the entire input is
consumed as a valid number of the requested base: empty input fails,
`"123x"` fails, a success certifies full error-free consumption, and any
input ending in a character that is not a digit of the requested base
fails. -/
theorem from_string_full_consumption (lo hi : Int) (hex : Bool) :
    from_string lo hi [] hex = none
    ∧ from_string lo hi ['1', '2', '3', 'x'] hex = none
    ∧ (∀ s v, from_string lo hi s hex = some v →
        (fromCharsInt lo hi (if hex then 16 else 10) s).1 = s.length
        ∧ (fromCharsInt lo hi (if hex then 16 else 10) s).2 = Except.ok v)
    ∧ (∀ s c, validDigit (if hex then 16 else 10) c = false →
        from_string lo hi (s ++ [c]) hex = none) := by
  refine ⟨?_, ?_, fun s v h => from_string_some lo hi hex s v h, fun s c hc => ?_⟩
  · refine from_string_none_of_err lo hi hex [] CharconvErr.invalid ?_
    unfold fromCharsInt
    rw [if_neg (by simp)]
    rfl
  · have hc : validDigit (if hex then 16 else 10) 'x' = false := by
      cases hex <;> decide
    have h := fromCharsInt_append_invalid lo hi (if hex then 16 else 10)
      ['1', '2', '3'] 'x' hc
    rcases h with h | ⟨e, he⟩
    · exact from_string_none_of_len lo hi hex (['1', '2', '3'] ++ ['x']) (by omega)
    · exact from_string_none_of_err lo hi hex _ e he
  · rcases fromCharsInt_append_invalid lo hi (if hex then 16 else 10) s c hc
      with h | ⟨e, he⟩
    · exact from_string_none_of_len lo hi hex _ (by omega)
    · exact from_string_none_of_err lo hi hex _ e he

/-- Witness for `from_string_full_consumption`: trailing `x` after the
digits `12` makes the parse fail. -/
theorem from_string_full_consumption_witness :
    from_string (-128) 127 (['1', '2'] ++ ['x']) false = none :=
  (from_string_full_consumption (-128) 127 false).2.2.2 ['1', '2'] 'x' (by decide)

end utils
